import Mathlib

/-!
Shallow embedding of the nbtrock bedrock-NBT codec (src/src/lib.rs) and of
the wasm path mutator (src/src/wasm.rs).

Modelling conventions:
* Machine integers are modelled by their unsigned bit patterns: an `i8` is a
  `Nat` below `2 ^ 8`, an `i32` a `Nat` below `2 ^ 32`, and so on.  The codec
  only moves bytes, so this representation is bijective with the Rust values;
  `f32`/`f64` payloads are likewise carried as their IEEE-754 bit patterns,
  which is exactly what `read_f32`/`write_f32` transport.
* A Rust `String` is modelled as its UTF-8 byte sequence (`List Nat`), with
  validity expressed by `utf8Valid` below (the strict check performed by
  `String::from_utf8`).
* The `ritelinked` `LinkedHashMap` (a `hashlink` fork) is modelled as an
  insertion-ordered entry list `VEntries`; `VEntries.insert` mirrors the
  map's `insert`, which attaches the entry at the back of the iteration
  order — a fresh key is appended, an existing key is moved to the back
  with its new value.
* Writers append to a byte buffer (a `Vec<u8>` never raises an IO error); a
  failed `NBT::write` hands nothing to the caller's sink, which the model
  expresses by returning `Except.error` without bytes.
-/

/-- Error kinds of the library (mirrors `enum Error` in src/src/lib.rs).
`io` stands for any propagated `std::io::Error`, e.g. an unexpected EOF. -/
inductive Error where
  | io
  | utf8 (pos : Nat)
  | root (tag : Nat)
  | invalidTypeId (tag : Nat)
  | heterogeneousList
deriving DecidableEq

instance {ε α : Type} [DecidableEq ε] [DecidableEq α] : DecidableEq (Except ε α) := fun x y =>
  match x, y with
  | .ok a, .ok b =>
      if h : a = b then .isTrue (by rw [h]) else
        .isFalse (by intro hh; injection hh; contradiction)
  | .error a, .error b =>
      if h : a = b then .isTrue (by rw [h]) else
        .isFalse (by intro hh; injection hh; contradiction)
  | .ok _, .error _ => .isFalse (by intro hh; injection hh)
  | .error _, .ok _ => .isFalse (by intro hh; injection hh)

mutual
/-- The NBT tag enumeration (`enum Value` in src/src/lib.rs).  Scalar
payloads are unsigned bit patterns, strings are UTF-8 byte lists. -/
inductive Value where
  | Byte (v : Nat)
  | Short (v : Nat)
  | Int (v : Nat)
  | Long (v : Nat)
  | Float (v : Nat)
  | Double (v : Nat)
  | ByteArray (v : List Nat)
  | String (s : List Nat)
  | List (vs : VList)
  | Compound (es : VEntries)
  | IntArray (v : List Nat)
  | LongArray (v : List Nat)
deriving DecidableEq

/-- `Vec<Value>` (the payload of `Value::List`). -/
inductive VList where
  | nil
  | cons (v : Value) (tl : VList)
deriving DecidableEq

/-- `LinkedHashMap<String, Value>` (the payload of `Value::Compound`) as an
insertion-ordered entry list. -/
inductive VEntries where
  | nil
  | cons (name : List Nat) (v : Value) (tl : VEntries)
deriving DecidableEq
end

/-- `Value::tag` (src/src/lib.rs, lines 179-194). -/
def Value.tag : Value → Nat
  | .Byte _ => 0x01
  | .Short _ => 0x02
  | .Int _ => 0x03
  | .Long _ => 0x04
  | .Float _ => 0x05
  | .Double _ => 0x06
  | .ByteArray _ => 0x07
  | .String _ => 0x08
  | .List _ => 0x09
  | .Compound _ => 0x0a
  | .IntArray _ => 0x0b
  | .LongArray _ => 0x0c

/-- Little-endian bytes of a 16-bit value (`write_u16::<LE>`; the `as u16`
truncation is the `% 2 ^ 16` implicit in taking two bytes). -/
def u16LE (n : Nat) : List Nat := [n % 256, n / 256 % 256]

/-- Little-endian bytes of a 32-bit value (`write_i32::<LE>`/`write_u32::<LE>`). -/
def u32LE (n : Nat) : List Nat :=
  [n % 256, n / 256 % 256, n / 256 ^ 2 % 256, n / 256 ^ 3 % 256]

/-- Little-endian bytes of a 64-bit value (`write_i64::<LE>`/`write_f64::<LE>`). -/
def u64LE (n : Nat) : List Nat :=
  [n % 256, n / 256 % 256, n / 256 ^ 2 % 256, n / 256 ^ 3 % 256,
   n / 256 ^ 4 % 256, n / 256 ^ 5 % 256, n / 256 ^ 6 % 256, n / 256 ^ 7 % 256]

/-- Recompose a little-endian byte list into the value it denotes. -/
def fromLE : List Nat → Nat
  | [] => 0
  | b :: tl => b + 256 * fromLE tl

/-- A UTF-8 continuation byte (`0x80..=0xBF`). -/
def contByte (b : Nat) : Bool := 0x80 ≤ b && b ≤ 0xBF

/-- Strict UTF-8 validity of a byte sequence, as checked by Rust's
`String::from_utf8` (no overlong forms, no surrogates, max `U+10FFFF`). -/
def utf8Valid : List Nat → Bool
  | [] => true
  | b :: bs =>
    if b ≤ 0x7F then utf8Valid bs
    else if 0xC2 ≤ b && b ≤ 0xDF then
      match bs with
      | c1 :: tl => contByte c1 && utf8Valid tl
      | _ => false
    else if b = 0xE0 then
      match bs with
      | c1 :: c2 :: tl => (0xA0 ≤ c1 && c1 ≤ 0xBF) && contByte c2 && utf8Valid tl
      | _ => false
    else if (0xE1 ≤ b && b ≤ 0xEC) || b = 0xEE || b = 0xEF then
      match bs with
      | c1 :: c2 :: tl => contByte c1 && contByte c2 && utf8Valid tl
      | _ => false
    else if b = 0xED then
      match bs with
      | c1 :: c2 :: tl => (0x80 ≤ c1 && c1 ≤ 0x9F) && contByte c2 && utf8Valid tl
      | _ => false
    else if b = 0xF0 then
      match bs with
      | c1 :: c2 :: c3 :: tl =>
          (0x90 ≤ c1 && c1 ≤ 0xBF) && contByte c2 && contByte c3 && utf8Valid tl
      | _ => false
    else if 0xF1 ≤ b && b ≤ 0xF3 then
      match bs with
      | c1 :: c2 :: c3 :: tl => contByte c1 && contByte c2 && contByte c3 && utf8Valid tl
      | _ => false
    else if b = 0xF4 then
      match bs with
      | c1 :: c2 :: c3 :: tl =>
          (0x80 ≤ c1 && c1 ≤ 0x8F) && contByte c2 && contByte c3 && utf8Valid tl
      | _ => false
    else false

/-- `write_string` (src/src/lib.rs, lines 419-425): a 16-bit little-endian
length prefix (`s.len() as u16`, hence mod `2 ^ 16`) followed by the bytes. -/
def write_string (c : List Nat) (s : List Nat) : List Nat := c ++ u16LE s.length ++ s

/-- Flattened `write_i32::<LE>` of each element (IntArray body). -/
def writeU32s : List Nat → List Nat
  | [] => []
  | x :: xs => u32LE x ++ writeU32s xs

/-- Flattened `write_i64::<LE>` of each element (LongArray body). -/
def writeU64s : List Nat → List Nat
  | [] => []
  | x :: xs => u64LE x ++ writeU64s xs

mutual
/-- `Value::write` (src/src/lib.rs, lines 254-307).  The buffer argument is
the `Vec<u8>` being appended to; the only error the writer can raise is
`HeterogeneousList` (writes into a `Vec` are infallible). -/
def Value.write : Value → List Nat → Except Error (List Nat)
  | .Byte v, c => .ok (c ++ [v % 256])
  | .Short v, c => .ok (c ++ u16LE v)
  | .Int v, c => .ok (c ++ u32LE v)
  | .Long v, c => .ok (c ++ u64LE v)
  | .Float v, c => .ok (c ++ u32LE v)
  | .Double v, c => .ok (c ++ u64LE v)
  | .ByteArray v, c => .ok (c ++ u32LE v.length ++ v)
  | .String s, c => .ok (write_string c s)
  | .List vs, c =>
      match vs with
      | .nil => .ok (c ++ [0] ++ u32LE 0)
      | .cons v0 tl =>
          VList.writeElems (Value.tag v0) (.cons v0 tl)
            (c ++ [Value.tag v0] ++ u32LE (VList.len (.cons v0 tl)))
  | .Compound es, c =>
      match VEntries.write es c with
      | .ok c2 => .ok (c2 ++ [0])
      | .error e => .error e
  | .IntArray v, c => .ok (c ++ u32LE v.length ++ writeU32s v)
  | .LongArray v, c => .ok (c ++ u32LE v.length ++ writeU64s v)

/-- The element loop of `Value::write` for lists: each element's tag is
checked against the first element's tag before it is written. -/
def VList.writeElems : Nat → VList → List Nat → Except Error (List Nat)
  | _, .nil, c => .ok c
  | first_id, .cons v tl, c =>
      if Value.tag v ≠ first_id then .error .heterogeneousList
      else
        match Value.write v c with
        | .ok c2 => VList.writeElems first_id tl c2
        | .error e => .error e

/-- The entry loop of `Value::write` for compounds: tag byte, name, value
per entry, in insertion order. -/
def VEntries.write : VEntries → List Nat → Except Error (List Nat)
  | .nil, c => .ok c
  | .cons name v tl, c =>
      match Value.write v (write_string (c ++ [Value.tag v]) name) with
      | .ok c2 => VEntries.write tl c2
      | .error e => .error e

/-- `Vec::len` for `VList`. -/
def VList.len : VList → Nat
  | .nil => 0
  | .cons _ tl => VList.len tl + 1
end

/-- `struct NBT` (src/src/lib.rs): a name and a root value. -/
structure NBT where
  name : List Nat
  data : Value
deriving DecidableEq

/-- `NBT::write` (src/src/lib.rs, lines 74-88): build `0x0a ++ name ++ body`
in a local buffer; on success optionally prepend the 8-byte bedrock header
(LE `i32` magic 8 and LE `u32` body length) and hand everything to the
caller's sink.  On error the local buffer is dropped and the sink receives
nothing, hence the error result carries no bytes. -/
def NBT.write (n : NBT) (bedrock_header : Bool) : Except Error (List Nat) :=
  match Value.write n.data (write_string [0x0a] n.name) with
  | .error e => .error e
  | .ok buf => .ok ((if bedrock_header then u32LE 8 ++ u32LE buf.length else []) ++ buf)

/-- The byte cursor (`Cursor<&mut Vec<u8>>`): remaining bytes plus the
absolute position, which the UTF-8 error reports. -/
structure Cur where
  rem : List Nat
  pos : Nat
deriving DecidableEq

/-- `read_u8`: one byte or an EOF error. -/
def readU8 (c : Cur) : Except Error (Nat × Cur) :=
  match c.rem with
  | [] => .error .io
  | b :: bs => .ok (b, ⟨bs, c.pos + 1⟩)

/-- Split off the first `k` elements, or fail when fewer are available. -/
def takeExact : Nat → List Nat → Option (List Nat × List Nat)
  | 0, l => some ([], l)
  | _ + 1, [] => none
  | k + 1, b :: bs =>
      match takeExact k bs with
      | none => none
      | some (xs, rest) => some (b :: xs, rest)

/-- `read_exact` into a buffer of length `k`. -/
def readExact (k : Nat) (c : Cur) : Except Error (List Nat × Cur) :=
  match takeExact k c.rem with
  | some (buf, rest) => .ok (buf, ⟨rest, c.pos + k⟩)
  | none => .error .io

/-- `read_u16::<LE>`: the bit pattern of the two little-endian bytes. -/
def readU16 (c : Cur) : Except Error (Nat × Cur) :=
  match readExact 2 c with
  | .ok (bs, c2) => .ok (fromLE bs, c2)
  | .error e => .error e

/-- `read_i32::<LE>` / `read_f32::<LE>`: the 32-bit pattern of four
little-endian bytes (signedness only matters through `asUsize` below). -/
def readU32 (c : Cur) : Except Error (Nat × Cur) :=
  match readExact 4 c with
  | .ok (bs, c2) => .ok (fromLE bs, c2)
  | .error e => .error e

/-- `read_i64::<LE>` / `read_f64::<LE>`: the 64-bit pattern of eight
little-endian bytes. -/
def readU64 (c : Cur) : Except Error (Nat × Cur) :=
  match readExact 8 c with
  | .ok (bs, c2) => .ok (fromLE bs, c2)
  | .error e => .error e

/-- The `as usize` cast applied to a freshly read `i32` length: a negative
pattern sign-extends to a 64-bit `usize`. -/
def asUsize (n : Nat) : Nat := if n < 2 ^ 31 then n else n + (2 ^ 64 - 2 ^ 32)

/-- The ByteArray element loop: `len` iterations of `read_i8`. -/
def readU8s : Nat → Cur → Except Error (List Nat × Cur)
  | 0, c => .ok ([], c)
  | n + 1, c =>
      match readU8 c with
      | .error e => .error e
      | .ok (v, c1) =>
          match readU8s n c1 with
          | .error e => .error e
          | .ok (vs, c2) => .ok (v :: vs, c2)

/-- The IntArray element loop: `len` iterations of `read_i32::<LE>`. -/
def readU32s : Nat → Cur → Except Error (List Nat × Cur)
  | 0, c => .ok ([], c)
  | n + 1, c =>
      match readU32 c with
      | .error e => .error e
      | .ok (v, c1) =>
          match readU32s n c1 with
          | .error e => .error e
          | .ok (vs, c2) => .ok (v :: vs, c2)

/-- The LongArray element loop: `len` iterations of `read_i64::<LE>`. -/
def readU64s : Nat → Cur → Except Error (List Nat × Cur)
  | 0, c => .ok ([], c)
  | n + 1, c =>
      match readU64 c with
      | .error e => .error e
      | .ok (v, c1) =>
          match readU64s n c1 with
          | .error e => .error e
          | .ok (vs, c2) => .ok (v :: vs, c2)

/-- `read_string` (src/src/lib.rs, lines 400-417): 16-bit LE length, a
zero length short-circuits to the empty string, otherwise `len` bytes are
read and validated as UTF-8; a validation failure reports the cursor
position after the read. -/
def read_string (c : Cur) : Except Error (List Nat × Cur) :=
  match readU16 c with
  | .error e => .error e
  | .ok (len, c1) =>
    if len = 0 then .ok ([], c1)
    else
      match readExact len c1 with
      | .error e => .error e
      | .ok (buf, c2) => if utf8Valid buf then .ok (buf, c2) else .error (.utf8 c2.pos)

/-- `read_next_header` (src/src/lib.rs, lines 390-398): a tag byte, then —
unless the tag is the `0x00` sentinel — a length-prefixed name. -/
def read_next_header (c : Cur) : Except Error (Nat × List Nat × Cur) :=
  match readU8 c with
  | .error e => .error e
  | .ok (tag, c1) =>
    if tag = 0 then .ok (0, [], c1)
    else
      match read_string c1 with
      | .error e => .error e
      | .ok (name, c2) => .ok (tag, name, c2)

/-- `LinkedHashMap::insert` (`ritelinked`, a `hashlink` fork): the entry is
attached at the back of the iteration order — a fresh key is appended, and
an already-present key is removed from its old position and re-attached at
the back with the new value (the map's keys are unique, so the recursion
drops the single existing entry). -/
def VEntries.insert : VEntries → List Nat → Value → VEntries
  | .nil, k, v => .cons k v .nil
  | .cons n w tl, k, v =>
      if n = k then VEntries.insert tl k v
      else .cons n w (VEntries.insert tl k v)

mutual
/-- `Value::read` (src/src/lib.rs, lines 196-252).  The extra list is
recursion fuel, a termination device absent from the source (only its
length matters): every nested call peels one element, and the fuel supplied
by `NBT.readFrom` below exceeds the number of nested calls any parse of the
remaining bytes can make (the round-trip lemmas below discharge the fuel
bound on every input the claims exercise).  Exhausted fuel reports the same
`io` error as the EOF that accompanies it in the source. -/
def Value.read : List Nat → Nat → Cur → Except Error (Value × Cur)
  | [], _, _ => .error .io
  | _ :: _fuel, tag, c =>
    match tag with
    | 0x01 =>
        match readU8 c with
        | .ok (v, c1) => .ok (.Byte v, c1)
        | .error e => .error e
    | 0x02 =>
        match readU16 c with
        | .ok (v, c1) => .ok (.Short v, c1)
        | .error e => .error e
    | 0x03 =>
        match readU32 c with
        | .ok (v, c1) => .ok (.Int v, c1)
        | .error e => .error e
    | 0x04 =>
        match readU64 c with
        | .ok (v, c1) => .ok (.Long v, c1)
        | .error e => .error e
    | 0x05 =>
        match readU32 c with
        | .ok (v, c1) => .ok (.Float v, c1)
        | .error e => .error e
    | 0x06 =>
        match readU64 c with
        | .ok (v, c1) => .ok (.Double v, c1)
        | .error e => .error e
    | 0x07 =>
        match readU32 c with
        | .error e => .error e
        | .ok (len, c1) =>
            match readU8s (asUsize len) c1 with
            | .error e => .error e
            | .ok (buf, c2) => .ok (.ByteArray buf, c2)
    | 0x08 =>
        match read_string c with
        | .ok (s, c1) => .ok (.String s, c1)
        | .error e => .error e
    | 0x09 =>
        match readU8 c with
        | .error e => .error e
        | .ok (id, c1) =>
            match readU32 c1 with
            | .error e => .error e
            | .ok (len, c2) =>
                match VList.read _fuel id (asUsize len) c2 with
                | .error e => .error e
                | .ok (vs, c3) => .ok (.List vs, c3)
    | 0x0a =>
        match VEntries.read _fuel c .nil with
        | .error e => .error e
        | .ok (es, c1) => .ok (.Compound es, c1)
    | 0x0b =>
        match readU32 c with
        | .error e => .error e
        | .ok (len, c1) =>
            match readU32s (asUsize len) c1 with
            | .error e => .error e
            | .ok (buf, c2) => .ok (.IntArray buf, c2)
    | 0x0c =>
        match readU32 c with
        | .error e => .error e
        | .ok (len, c1) =>
            match readU64s (asUsize len) c1 with
            | .error e => .error e
            | .ok (buf, c2) => .ok (.LongArray buf, c2)
    | e => .error (.invalidTypeId e)

/-- The list element loop of `Value::read`: `len` elements decoded with the
declared element type id. -/
def VList.read : List Nat → Nat → Nat → Cur → Except Error (VList × Cur)
  | [], _, _, _ => .error .io
  | _ :: _fuel, id, n, c =>
    match n with
    | 0 => .ok (.nil, c)
    | m + 1 =>
        match Value.read _fuel id c with
        | .error e => .error e
        | .ok (v, c1) =>
            match VList.read _fuel id m c1 with
            | .error e => .error e
            | .ok (vs, c2) => .ok (.cons v vs, c2)

/-- The compound entry loop of `Value::read`: header triples until the
`0x00` sentinel, inserting each decoded entry into the map. -/
def VEntries.read : List Nat → Cur → VEntries → Except Error (VEntries × Cur)
  | [], _, _ => .error .io
  | _ :: _fuel, c, acc =>
    match read_next_header c with
    | .error e => .error e
    | .ok (id, name, c1) =>
      if id = 0 then .ok (acc, c1)
      else
        match Value.read _fuel id c1 with
        | .error e => .error e
        | .ok (v, c2) => VEntries.read _fuel c2 (VEntries.insert acc name v)
end

/-- The body of `NBT::read` after the framing heuristic has fixed the start
offset: read the outer header triple, reject a non-`0x0a` root, decode the
root compound. -/
def NBT.readFrom (c : Cur) : Except Error NBT :=
  match read_next_header c with
  | .error e => .error e
  | .ok (tag, name, c1) =>
    if tag = 0x0a then
      match Value.read (0 :: 0 :: (c1.rem ++ c1.rem)) tag c1 with
      | .error e => .error e
      | .ok (v, _) => .ok ⟨name, v⟩
    else .error (.root tag)

/-- `NBT::read` (src/src/lib.rs, lines 100-116): read the first four bytes
as an LE `i32`; if the value is the framing magic 8, restart at offset 8
(past the bedrock header), otherwise restart at offset 0. -/
def NBT.read (bs : List Nat) : Except Error NBT :=
  match readU32 ⟨bs, 0⟩ with
  | .error e => .error e
  | .ok (v, _) =>
      if v = 8 then NBT.readFrom ⟨bs.drop 8, 8⟩ else NBT.readFrom ⟨bs, 0⟩

/-- `NBT::header` (src/src/lib.rs, lines 90-97): `read_exact` into an
8-byte buffer, mapping success to `Some` and any failure to `None`; the
function itself always returns `Ok`. -/
def NBT.header (r : List Nat) : Except Error (Option (List Nat)) :=
  .ok (if 8 ≤ r.length then some (r.take 8) else none)

/-- `enum WasmError` (src/src/wasm.rs): the variants the path mutator can
raise.  `wrap` is `WasmError::Error` holding a library `Error`; the serde
marshalling variant belongs to the out-of-scope JS bridge. -/
inductive WasmError where
  | invalidStr
  | invalidPath (seg : List Nat)
  | wrap (e : Error)
deriving DecidableEq

/-- `LinkedHashMap::get_mut` as a pure lookup. -/
def VEntries.lookup (k : List Nat) : VEntries → Option Value
  | .nil => none
  | .cons n v tl => if n = k then some v else VEntries.lookup k tl

/-- `LinkedHashMap::remove`: drop the entry with the given key, keeping the
other entries in order. -/
def VEntries.remove (k : List Nat) : VEntries → VEntries
  | .nil => .nil
  | .cons n v tl => if n = k then tl else .cons n v (VEntries.remove k tl)

/-- The keys of a map, in insertion order. -/
def VEntries.keys : VEntries → List (List Nat)
  | .nil => []
  | .cons n _ tl => n :: VEntries.keys tl

/-- Mutation behind `get_mut`: the source descends into an existing nested
compound and mutates it through a pointer, which cannot change the parent
map's structure or order; the model updates the value at the key's
existing position. -/
def VEntries.setValue : VEntries → List Nat → Value → VEntries
  | .nil, _, _ => .nil
  | .cons n w tl, k, v =>
      if n = k then .cons n v tl else .cons n w (VEntries.setValue tl k v)

/-- The segment loop of `NBT::set` (src/src/wasm.rs, lines 213-247).  The
source walks the nested maps through raw pointers and mutates them in
place, so a failed call still keeps every mutation made before the failure;
the model therefore returns the updated map together with an optional
error.  Each segment is compared against the final segment by string value
(`p == last` on the component, not by position); on a match the terminal
insert/remove runs and the loop breaks (`insert` is the map's move-to-back
insert).  Otherwise the segment is looked up: an existing compound is
descended into through `get_mut` (in-place mutation, `VEntries.setValue`),
an existing non-compound stops the walk with `InvalidPath`, and a missing
segment gets a fresh empty compound inserted — appended at the back, the
`to_back` call on a just-inserted key being an order no-op — which is then
descended into. -/
def setGo (last : List Nat) (value : Option Value) :
    List (List Nat) → VEntries → VEntries × Option WasmError
  | [], m => (m, none)
  | p :: rest, m =>
    if p = last then
      match value with
      | some v => (m.insert p v, none)
      | none => (m.remove p, none)
    else
      match m.lookup p with
      | some (Value.Compound c) =>
          let r := setGo last value rest c
          (m.setValue p (.Compound r.1), r.2)
      | some _ => (m, some (.invalidPath p))
      | none =>
          let r := setGo last value rest .nil
          (m.insert p (.Compound r.1), r.2)

/-- `NBT::set` (src/src/wasm.rs, lines 207-254).  The path argument is the
list of path segments produced by `Path::iter` (each a UTF-8 string, so the
`to_str` conversions succeed); the value argument is the already
unmarshalled `Option<Value>`.  A non-compound root fails with
`Error::Root(255)` before anything is touched; an empty segment list fails
with `InvalidStr`. -/
def NBT.set (n : NBT) (path : List (List Nat)) (value : Option Value) :
    NBT × Option WasmError :=
  match n.data with
  | Value.Compound m =>
    match path.getLast? with
    | none => (n, some .invalidStr)
    | some last =>
        let r := setGo last value path m
        (⟨n.name, Value.Compound r.1⟩, r.2)
  | _ => (n, some (.wrap (.root 255)))

/-- All elements of a list share the given tag id. -/
def VList.allTag (id : Nat) : VList → Bool
  | .nil => true
  | .cons v tl => (Value.tag v == id) && VList.allTag id tl

/-- A list body with at least two elements of differing tag ids
(equivalently: some element's tag differs from the first element's). -/
def VList.mismatch : VList → Bool
  | .nil => false
  | .cons v0 tl => !(VList.allTag (Value.tag v0) tl)

mutual
/-- Every `List` node inside the value is homogeneous: all elements share
the first element's tag id. -/
def Value.homog : Value → Bool
  | .List vs =>
      (match vs with
       | .nil => true
       | .cons v0 _ => VList.allTag (Value.tag v0) vs) && VList.homogAll vs
  | .Compound es => VEntries.homogAll es
  | _ => true

/-- All elements of the list are recursively homogeneous. -/
def VList.homogAll : VList → Bool
  | .nil => true
  | .cons v tl => Value.homog v && VList.homogAll tl

/-- All entry values of the compound are recursively homogeneous. -/
def VEntries.homogAll : VEntries → Bool
  | .nil => true
  | .cons _ v tl => Value.homog v && VEntries.homogAll tl
end

mutual
/-- The value is representable by the Rust types and within the codec's
length limits: scalar patterns fit their width, strings are valid UTF-8 of
byte length below `2 ^ 16` (the `as u16` length prefix), arrays and lists
are shorter than `2 ^ 31` (the `as i32` length prefix), and compound keys
are unique strings. -/
def Value.wf : Value → Bool
  | .Byte v => v < 2 ^ 8
  | .Short v => v < 2 ^ 16
  | .Int v => v < 2 ^ 32
  | .Long v => v < 2 ^ 64
  | .Float v => v < 2 ^ 32
  | .Double v => v < 2 ^ 64
  | .ByteArray v => decide (v.length < 2 ^ 31) && v.all (· < 2 ^ 8)
  | .String s => decide (s.length < 2 ^ 16) && utf8Valid s
  | .List vs => decide (VList.len vs < 2 ^ 31) && VList.wfAll vs
  | .Compound es => VEntries.wfAll es
  | .IntArray v => decide (v.length < 2 ^ 31) && v.all (· < 2 ^ 32)
  | .LongArray v => decide (v.length < 2 ^ 31) && v.all (· < 2 ^ 64)

/-- All list elements are recursively well-formed. -/
def VList.wfAll : VList → Bool
  | .nil => true
  | .cons v tl => Value.wf v && VList.wfAll tl

/-- All compound entries are recursively well-formed, each key is a valid
string below the length limit, and no key repeats. -/
def VEntries.wfAll : VEntries → Bool
  | .nil => true
  | .cons n v tl =>
      decide (n.length < 2 ^ 16) && utf8Valid n && (VEntries.lookup n tl).isNone &&
        Value.wf v && VEntries.wfAll tl
end

/-- A well-formed tree: a representable name and a representable root. -/
def NBT.wf (n : NBT) : Bool :=
  decide (n.name.length < 2 ^ 16) && utf8Valid n.name && Value.wf n.data

/-- The root value is a compound (the data-model invariant of `Tree`). -/
def Value.isCompound : Value → Bool
  | .Compound _ => true
  | _ => false

mutual
/-- The byte body that `Value::write` produces for a value (the writer's
output with the heterogeneity check stripped; for homogeneous values the
two agree, which `value_write_shape` below proves). -/
def Value.out : Value → List Nat
  | .Byte v => [v % 256]
  | .Short v => u16LE v
  | .Int v => u32LE v
  | .Long v => u64LE v
  | .Float v => u32LE v
  | .Double v => u64LE v
  | .ByteArray v => u32LE v.length ++ v
  | .String s => u16LE s.length ++ s
  | .List .nil => [0] ++ u32LE 0
  | .List (.cons v0 tl) =>
      [Value.tag v0] ++ u32LE (VList.len (.cons v0 tl)) ++ VList.outAll (.cons v0 tl)
  | .Compound es => VEntries.outAll es ++ [0]
  | .IntArray v => u32LE v.length ++ writeU32s v
  | .LongArray v => u32LE v.length ++ writeU64s v

/-- Concatenated bodies of the list elements. -/
def VList.outAll : VList → List Nat
  | .nil => []
  | .cons v tl => Value.out v ++ VList.outAll tl

/-- Concatenated `(tag, name, body)` records of the compound entries. -/
def VEntries.outAll : VEntries → List Nat
  | .nil => []
  | .cons n v tl =>
      [Value.tag v] ++ u16LE n.length ++ n ++ Value.out v ++ VEntries.outAll tl
end

/-- Concatenation of two entry lists. -/
def VEntries.appendE : VEntries → VEntries → VEntries
  | .nil, e2 => e2
  | .cons n v tl, e2 => .cons n v (VEntries.appendE tl e2)

/-- A tree whose root compound maps the key "k" to a String of 65536 NUL
bytes — a valid Rust `NBT` value (every list trivially homogeneous, root a
compound) whose string is too long for the 16-bit length prefix. -/
def bigTree : NBT := ⟨[84], .Compound (.cons [107] (.String (List.replicate 65536 0)) .nil)⟩

lemma take_append_len (pre post : List Nat) : (pre ++ post).take pre.length = pre := by
  induction pre with
  | nil => rfl
  | cons a tl ih => simp [ih]

/-- C2: encoding the tree named "Test" whose root compound maps "key" to
Int(3), without the framing header, produces exactly the 18 bytes
`[0x0A, 0x04, 0x00, 'T', 'e', 's', 't', 0x03, 0x03, 0x00, 'k', 'e', 'y',
0x03, 0x00, 0x00, 0x00, 0x00]`, and decoding those bytes reproduces the
same tree. -/
theorem claim_C2_example_end_to_end :
    NBT.write ⟨[84, 101, 115, 116], .Compound (.cons [107, 101, 121] (.Int 3) .nil)⟩ false =
      .ok [0x0A, 0x04, 0x00, 84, 101, 115, 116, 0x03, 0x03, 0x00, 107, 101, 121,
           0x03, 0x00, 0x00, 0x00, 0x00] ∧
    NBT.read [0x0A, 0x04, 0x00, 84, 101, 115, 116, 0x03, 0x03, 0x00, 107, 101, 121,
              0x03, 0x00, 0x00, 0x00, 0x00] =
      .ok ⟨[84, 101, 115, 116], .Compound (.cons [107, 101, 121] (.Int 3) .nil)⟩ := by
  exact ⟨by decide, by decide⟩

/-- C8: `NBT::header` returns `Ok (Some bytes)` with exactly the first 8
bytes whenever the stream holds at least 8 bytes, and `Ok None` (not an
error) whenever it holds fewer than 8 bytes, whatever the bytes are. -/
theorem claim_C8_peek_header (pre post bs : List Nat) :
    (pre.length = 8 → NBT.header (pre ++ post) = .ok (some pre)) ∧
    (8 ≤ bs.length → NBT.header bs = .ok (some (bs.take 8)) ∧ (bs.take 8).length = 8) ∧
    (bs.length < 8 → NBT.header bs = .ok none) := by
  refine ⟨fun h => ?_, fun h => ⟨?_, ?_⟩, fun h => ?_⟩
  · have hlen : 8 ≤ (pre ++ post).length := by
      simp [List.length_append, h]
    simp only [NBT.header, if_pos hlen]
    rw [← h, take_append_len]
  · simp only [NBT.header, if_pos h]
  · simp only [List.length_take]
    omega
  · have hn : ¬ 8 ≤ bs.length := by omega
    simp [NBT.header, hn]

/-- Witness for C8 at concrete streams of lengths 9 and 3. -/
theorem claim_C8_peek_header_witness :
    NBT.header [1, 2, 3, 4, 5, 6, 7, 8, 9] = .ok (some [1, 2, 3, 4, 5, 6, 7, 8]) ∧
    NBT.header [1, 2, 3] = .ok none := by
  constructor
  · exact (claim_C8_peek_header [1, 2, 3, 4, 5, 6, 7, 8] [9] []).1 (by decide)
  · exact (claim_C8_peek_header [] [] [1, 2, 3]).2.2 (by decide)

/-- C5: the claim says `set` treats every segment except the last as an
intermediate (creating an empty compound and descending when absent), and
that `set(tree, "a/b/c", Some(String "x"))` on a fresh empty-root tree
builds nested compounds with the string at depth three.  The concrete
"a/b/c" part holds (second conjunct), but the loop compares each segment
with the final segment by string value, so on the path "a/a" the very
first segment triggers the terminal insert at the root instead of creating
an intermediate compound: the result is a flat `{"a": String "x"}` (first
conjunct), not the nested `{"a": {"a": String "x"}}` the claim requires. -/
theorem claim_C5_set_path_eval :
    NBT.set ⟨[116], .Compound .nil⟩ [[97], [97]] (some (.String [120])) =
      (⟨[116], .Compound (.cons [97] (.String [120]) .nil)⟩, none) ∧
    (⟨[116], .Compound (.cons [97] (.String [120]) .nil)⟩ : NBT) ≠
      ⟨[116], .Compound (.cons [97] (.Compound (.cons [97] (.String [120]) .nil)) .nil)⟩ ∧
    NBT.set ⟨[116], .Compound .nil⟩ [[97], [98], [99]] (some (.String [120])) =
      (⟨[116], .Compound (.cons [97] (.Compound (.cons [98]
        (.Compound (.cons [99] (.String [120]) .nil)) .nil)) .nil)⟩, none) := by
  exact ⟨by decide, by decide, by decide⟩

/-- C7: the claim says traversing a non-last segment holding a
non-compound always fails with `InvalidPath` and leaves the entries of the
compound holding that segment unchanged.  The second conjunct shows the
claimed behaviour on the path "a/b" through `{"a": Int 5, "z": Byte 1}`:
the call fails with `InvalidPath "a"` and the whole map, siblings
included, is untouched.  But because segments are compared with the final
segment by string value, the path "b/b" through `{"b": Int 5}` never
treats its first segment as an intermediate: instead of the claimed
`InvalidPath`, the call succeeds and overwrites the Int (first
conjunct). -/
theorem claim_C7_non_container_eval :
    NBT.set ⟨[], .Compound (.cons [98] (.Int 5) .nil)⟩ [[98], [98]] (some (.Int 7)) =
      (⟨[], .Compound (.cons [98] (.Int 7) .nil)⟩, none) ∧
    NBT.set ⟨[], .Compound (.cons [97] (.Int 5) (.cons [122] (.Byte 1) .nil))⟩
        [[97], [98]] (some (.Int 7)) =
      (⟨[], .Compound (.cons [97] (.Int 5) (.cons [122] (.Byte 1) .nil))⟩,
        some (.invalidPath [97])) := by
  exact ⟨by decide, by decide⟩

/-- C3 counterexample: the stream `[0x01, 0x01, 0x00, 0xFF]` has outermost
tag id `0x01 ≠ 0x0A` (its first four bytes are not the framing magic, so
decoding starts at offset 0), yet decoding fails with the UTF-8 error for
the root's name — which the decoder reads before checking the root tag —
and not with a `Root` error. -/
theorem claim_C3_counterexample :
    NBT.read [0x01, 0x01, 0x00, 0xFF] = .error (.utf8 4) ∧
      Error.utf8 4 ≠ Error.root 0x01 := by
  exact ⟨by decide, by decide⟩

/-- C3 amended: whenever the decoder successfully reads the outermost
header triple — the tag id and the root's name — at the offset selected by
the framing heuristic (offset 8 when the first four LE bytes equal 8,
offset 0 otherwise), and that tag id is not `0x0A`, decoding fails with a
`Root` error carrying that tag id.  (As stated the claim is false: when
the name bytes are missing or invalid UTF-8, the name read fails first and
decode reports that error instead.) -/
theorem claim_C3_amended (bs : List Nat) (v : Nat) (cv : Cur) (t : Nat)
    (nm : List Nat) (c2 : Cur)
    (h4 : readU32 ⟨bs, 0⟩ = .ok (v, cv))
    (hh : read_next_header (if v = 8 then (⟨bs.drop 8, 8⟩ : Cur) else ⟨bs, 0⟩) =
      .ok (t, nm, c2))
    (ht : t ≠ 0x0a) :
    NBT.read bs = .error (.root t) := by
  unfold NBT.read
  simp only [h4]
  by_cases hv : v = 8
  · simp only [if_pos hv] at hh ⊢
    unfold NBT.readFrom
    simp only [hh, if_neg ht]
  · simp only [if_neg hv] at hh ⊢
    unfold NBT.readFrom
    simp only [hh, if_neg ht]

/-- Witness for C3 amended: the stream `[0x05, 0x00, 0x00, 0x00]` parses
its outer header as tag `0x05` with an empty name, and decoding fails with
`Root 0x05`. -/
theorem claim_C3_amended_witness :
    NBT.read [0x05, 0x00, 0x00, 0x00] = .error (.root 0x05) := by
  exact claim_C3_amended [0x05, 0x00, 0x00, 0x00] 5 ⟨[], 4⟩ 5 [] ⟨[0], 3⟩
    (by decide) (by decide) (by decide)

mutual
theorem value_write_error (v : Value) (c : List Nat) (e : Error)
    (h : Value.write v c = .error e) : e = .heterogeneousList := by
  match v with
  | .Byte w | .Short w | .Int w | .Long w | .Float w | .Double w
  | .ByteArray w | .String w | .IntArray w | .LongArray w =>
    simp [Value.write] at h
  | .List .nil => simp [Value.write] at h
  | .List (.cons v0 tl) =>
    have h2 : VList.writeElems (Value.tag v0) (.cons v0 tl)
        (c ++ [Value.tag v0] ++ u32LE (VList.len (.cons v0 tl))) = .error e := h
    exact vlist_writeElems_error (.cons v0 tl) (Value.tag v0) _ e h2
  | .Compound es =>
    cases hw : VEntries.write es c with
    | ok c2 => simp [Value.write, hw] at h
    | error e2 =>
      simp [Value.write, hw] at h
      exact h ▸ ventries_write_error es c e2 hw

theorem vlist_writeElems_error (vs : VList) (id : Nat) (c : List Nat) (e : Error)
    (h : VList.writeElems id vs c = .error e) : e = .heterogeneousList := by
  match vs with
  | .nil => simp [VList.writeElems] at h
  | .cons v tl =>
    by_cases ht : Value.tag v ≠ id
    · simp [VList.writeElems, if_pos ht] at h
      exact h.symm
    · cases hw : Value.write v c with
      | ok c2 =>
        simp [VList.writeElems, if_neg ht, hw] at h
        exact vlist_writeElems_error tl id c2 e h
      | error e2 =>
        simp [VList.writeElems, if_neg ht, hw] at h
        exact h ▸ value_write_error v c e2 hw

theorem ventries_write_error (es : VEntries) (c : List Nat) (e : Error)
    (h : VEntries.write es c = .error e) : e = .heterogeneousList := by
  match es with
  | .nil => simp [VEntries.write] at h
  | .cons n v tl =>
    cases hw : Value.write v (write_string (c ++ [Value.tag v]) n) with
    | ok c2 =>
      simp [VEntries.write, hw] at h
      exact ventries_write_error tl c2 e h
    | error e2 =>
      simp [VEntries.write, hw] at h
      exact h ▸ value_write_error v _ e2 hw
end

mutual
theorem value_write_shape (v : Value) (c : List Nat) (h : Value.homog v = true) :
    Value.write v c = .ok (c ++ Value.out v) := by
  match v with
  | .Byte w | .Short w | .Int w | .Long w | .Float w | .Double w =>
    simp [Value.write, Value.out]
  | .ByteArray w | .IntArray w | .LongArray w =>
    simp [Value.write, Value.out]
  | .String w => simp [Value.write, Value.out, write_string]
  | .List .nil => simp [Value.write, Value.out]
  | .List (.cons v0 tl) =>
    simp only [Value.homog] at h
    have hA : VList.allTag (Value.tag v0) (.cons v0 tl) = true := by
      cases hx : VList.allTag (Value.tag v0) (.cons v0 tl) <;> simp [hx] at h ⊢
    have hH : VList.homogAll (.cons v0 tl) = true := by
      cases hx : VList.homogAll (.cons v0 tl) <;> simp [hx] at h ⊢
    have := vlist_writeElems_shape (.cons v0 tl) (Value.tag v0)
      (c ++ [Value.tag v0] ++ u32LE (VList.len (.cons v0 tl))) hA hH
    rw [show Value.write (.List (.cons v0 tl)) c =
      VList.writeElems (Value.tag v0) (.cons v0 tl)
        (c ++ [Value.tag v0] ++ u32LE (VList.len (.cons v0 tl))) from rfl, this]
    simp [Value.out, List.append_assoc]
  | .Compound es =>
    simp only [Value.homog] at h
    have := ventries_write_shape es c h
    rw [show Value.write (.Compound es) c =
      (match VEntries.write es c with
       | .ok c2 => .ok (c2 ++ [0])
       | .error e => .error e) from rfl, this]
    simp [Value.out, List.append_assoc]

theorem vlist_writeElems_shape (vs : VList) (id : Nat) (c : List Nat)
    (hA : VList.allTag id vs = true) (hH : VList.homogAll vs = true) :
    VList.writeElems id vs c = .ok (c ++ VList.outAll vs) := by
  match vs with
  | .nil => simp [VList.writeElems, VList.outAll]
  | .cons v tl =>
    simp only [VList.allTag, Bool.and_eq_true, beq_iff_eq] at hA
    simp only [VList.homogAll, Bool.and_eq_true] at hH
    have hw := value_write_shape v c hH.1
    have hr := vlist_writeElems_shape tl id (c ++ Value.out v) hA.2 hH.2
    rw [show VList.writeElems id (.cons v tl) c =
      (if Value.tag v ≠ id then .error .heterogeneousList
       else match Value.write v c with
         | .ok c2 => VList.writeElems id tl c2
         | .error e => .error e) from rfl]
    rw [if_neg (by simp [hA.1]), hw]
    simp [hr, VList.outAll, List.append_assoc]

theorem ventries_write_shape (es : VEntries) (c : List Nat)
    (hH : VEntries.homogAll es = true) :
    VEntries.write es c = .ok (c ++ VEntries.outAll es) := by
  match es with
  | .nil => simp [VEntries.write, VEntries.outAll]
  | .cons n v tl =>
    simp only [VEntries.homogAll, Bool.and_eq_true] at hH
    have hw := value_write_shape v (write_string (c ++ [Value.tag v]) n) hH.1
    have hr := ventries_write_shape tl
      (write_string (c ++ [Value.tag v]) n ++ Value.out v) hH.2
    rw [show VEntries.write (.cons n v tl) c =
      (match Value.write v (write_string (c ++ [Value.tag v]) n) with
       | .ok c2 => VEntries.write tl c2
       | .error e => .error e) from rfl]
    rw [hw]
    simp only [write_string, List.append_assoc, List.singleton_append,
      List.cons_append, List.nil_append] at hr
    simp [hr, VEntries.outAll, write_string, List.append_assoc]
end

mutual
theorem value_write_ok_out (v : Value) (c out : List Nat)
    (h : Value.write v c = .ok out) : out = c ++ Value.out v := by
  match v with
  | .Byte w | .Short w | .Int w | .Long w | .Float w | .Double w
  | .ByteArray w | .String w | .IntArray w | .LongArray w =>
    simp only [Value.write, write_string, Except.ok.injEq] at h
    rw [← h]
    simp [Value.out, write_string, List.append_assoc]
  | .List .nil =>
    simp only [Value.write, Except.ok.injEq] at h
    rw [← h]
    simp [Value.out, List.append_assoc]
  | .List (.cons v0 tl) =>
    have h2 : VList.writeElems (Value.tag v0) (.cons v0 tl)
        (c ++ [Value.tag v0] ++ u32LE (VList.len (.cons v0 tl))) = .ok out := h
    have h3 := vlist_writeElems_ok_out (.cons v0 tl) (Value.tag v0) _ out h2
    rw [h3]
    simp [Value.out, List.append_assoc]
  | .Compound es =>
    cases hw : VEntries.write es c with
    | error e2 => simp [Value.write, hw] at h
    | ok c2 =>
      have h3 := ventries_write_ok_out es c c2 hw
      simp only [Value.write, hw, Except.ok.injEq] at h
      rw [← h, h3]
      simp [Value.out, List.append_assoc]

theorem vlist_writeElems_ok_out (vs : VList) (id : Nat) (c out : List Nat)
    (h : VList.writeElems id vs c = .ok out) : out = c ++ VList.outAll vs := by
  match vs with
  | .nil =>
    simp only [VList.writeElems, Except.ok.injEq] at h
    rw [← h]
    simp [VList.outAll]
  | .cons v tl =>
    by_cases ht : Value.tag v ≠ id
    · simp [VList.writeElems, if_pos ht] at h
    · cases hw : Value.write v c with
      | error e2 => simp [VList.writeElems, if_neg ht, hw] at h
      | ok c2 =>
        simp only [VList.writeElems, if_neg ht, hw] at h
        have h3 := vlist_writeElems_ok_out tl id c2 out h
        have h4 := value_write_ok_out v c c2 hw
        rw [h3, h4]
        simp [VList.outAll, List.append_assoc]

theorem ventries_write_ok_out (es : VEntries) (c out : List Nat)
    (h : VEntries.write es c = .ok out) : out = c ++ VEntries.outAll es := by
  match es with
  | .nil =>
    simp only [VEntries.write, Except.ok.injEq] at h
    rw [← h]
    simp [VEntries.outAll]
  | .cons n v tl =>
    cases hw : Value.write v (write_string (c ++ [Value.tag v]) n) with
    | error e2 => simp [VEntries.write, hw] at h
    | ok c2 =>
      simp only [VEntries.write, hw] at h
      have h3 := ventries_write_ok_out tl c2 out h
      have h4 := value_write_ok_out v _ c2 hw
      rw [h3, h4]
      simp [VEntries.outAll, write_string, List.append_assoc]
end

theorem Value.out_pos (v : Value) : 1 ≤ (Value.out v).length := by
  match v with
  | .Byte w | .Short w | .Int w | .Long w | .Float w | .Double w
  | .ByteArray w | .String w | .IntArray w | .LongArray w =>
    simp [Value.out, u16LE, u32LE, u64LE]
  | .List .nil => simp [Value.out]
  | .List (.cons v0 tl) => simp [Value.out]
  | .Compound es => simp [Value.out]

theorem VList.writeElems_not_ok (vs : VList) (id : Nat)
    (hA : VList.allTag id vs = false) (c out : List Nat) :
    VList.writeElems id vs c ≠ .ok out := by
  match vs with
  | .nil => simp [VList.allTag] at hA
  | .cons v tl =>
    simp only [VList.allTag, Bool.and_eq_false_iff] at hA
    by_cases ht : Value.tag v ≠ id
    · simp [VList.writeElems, if_pos ht]
    · have htl : VList.allTag id tl = false := by
        rcases hA with h1 | h2
        · exact absurd (by simpa using h1) (by simpa using ht)
        · exact h2
      cases hw : Value.write v c with
      | error e2 => simp [VList.writeElems, if_neg ht, hw]
      | ok c2 =>
        simp only [VList.writeElems, if_neg ht, hw]
        exact VList.writeElems_not_ok tl id htl c2 out

/-- C4: for every list body with two elements of differing tag ids,
`Value::write` on the list fails with `HeterogeneousList` (first
conjunct), and encoding a tree containing that list hands no bytes at all
to the caller — the whole `NBT::write` is the error, with no output
produced (second conjunct). -/
theorem claim_C4_heterogeneous_list (c : List Nat) (vs : VList)
    (name key : List Nat) (framed : Bool)
    (h : VList.mismatch vs = true) :
    Value.write (.List vs) c = .error .heterogeneousList ∧
    NBT.write ⟨name, .Compound (.cons key (.List vs) .nil)⟩ framed =
      .error .heterogeneousList := by
  have main : ∀ c2 : List Nat, Value.write (.List vs) c2 = .error .heterogeneousList := by
    intro c2
    match vs, h with
    | .cons v0 tl, h =>
      have hA : VList.allTag (Value.tag v0) (.cons v0 tl) = false := by
        simp only [VList.mismatch] at h
        have h2 : VList.allTag (Value.tag v0) tl = false := by simpa using h
        simp [VList.allTag, h2]
      have hW : Value.write (.List (.cons v0 tl)) c2 =
          VList.writeElems (Value.tag v0) (.cons v0 tl)
            (c2 ++ [Value.tag v0] ++ u32LE (VList.len (.cons v0 tl))) := rfl
      cases hr : VList.writeElems (Value.tag v0) (.cons v0 tl)
          (c2 ++ [Value.tag v0] ++ u32LE (VList.len (.cons v0 tl))) with
      | ok o => exact absurd hr (VList.writeElems_not_ok _ _ hA _ o)
      | error e =>
        rw [hW, hr, vlist_writeElems_error _ _ _ _ hr]
  refine ⟨main c, ?_⟩
  have hent : VEntries.write (.cons key (.List vs) .nil)
      (write_string [0x0a] name) = .error .heterogeneousList := by
    rw [show VEntries.write (.cons key (.List vs) .nil) (write_string [0x0a] name) =
      (match Value.write (.List vs)
          (write_string (write_string [0x0a] name ++ [Value.tag (.List vs)]) key) with
       | .ok c2 => VEntries.write .nil c2
       | .error e => .error e) from rfl, main _]
  rw [show NBT.write ⟨name, .Compound (.cons key (.List vs) .nil)⟩ framed =
    (match Value.write (.Compound (.cons key (.List vs) .nil))
        (write_string [0x0a] name) with
     | .error e => .error e
     | .ok buf => .ok ((if framed then u32LE 8 ++ u32LE buf.length else []) ++ buf))
    from rfl]
  rw [show Value.write (.Compound (.cons key (.List vs) .nil))
      (write_string [0x0a] name) =
    (match VEntries.write (.cons key (.List vs) .nil) (write_string [0x0a] name) with
     | .ok c2 => .ok (c2 ++ [0])
     | .error e => .error e) from rfl, hent]

/-- Witness for C4 at the two-element list `[Int 1, Byte 2]`. -/
theorem claim_C4_heterogeneous_list_witness :
    Value.write (.List (.cons (.Int 1) (.cons (.Byte 2) .nil))) [] =
      .error .heterogeneousList ∧
    NBT.write ⟨[], .Compound (.cons [107] (.List (.cons (.Int 1)
      (.cons (.Byte 2) .nil))) .nil)⟩ false = .error .heterogeneousList := by
  exact claim_C4_heterogeneous_list [] (.cons (.Int 1) (.cons (.Byte 2) .nil))
    [] [107] false (by decide)

/-- C9: encoding fails only with `HeterogeneousList`: when every list in
the tree is homogeneous the writer succeeds (first conjunct), and any
error the writer ever returns is `HeterogeneousList` (second conjunct). -/
theorem claim_C9_encode_fails_only_het (t : NBT) (framed : Bool) :
    (Value.homog t.data = true → (NBT.write t framed).isOk = true) ∧
    (∀ e : Error, NBT.write t framed = .error e → e = .heterogeneousList) := by
  constructor
  · intro h
    have hs := value_write_shape t.data (write_string [0x0a] t.name) h
    simp [NBT.write, hs, Except.isOk, Except.toBool]
  · intro e h
    cases hw : Value.write t.data (write_string [0x0a] t.name) with
    | ok buf => simp [NBT.write, hw] at h
    | error e2 =>
      simp only [NBT.write, hw] at h
      cases h
      exact value_write_error _ _ _ hw

/-- Witness for C9: the homogeneous example tree encodes successfully, and
a tree holding a mixed list fails with `HeterogeneousList`. -/
theorem claim_C9_encode_fails_only_het_witness :
    (NBT.write ⟨[84, 101, 115, 116], .Compound (.cons [107, 101, 121]
      (.Int 3) .nil)⟩ false).isOk = true := by
  exact (claim_C9_encode_fails_only_het
    ⟨[84, 101, 115, 116], .Compound (.cons [107, 101, 121] (.Int 3) .nil)⟩ false).1
    (by decide)

theorem fromLE_cons_ne8 (a : Nat) (tl : List Nat) (h : a = 10) :
    fromLE (a :: tl) ≠ 8 := by
  simp only [fromLE, h]
  omega

/-- C10: unframed encoder output always begins with the byte `0x0A`, its
first four bytes never read as the little-endian framing magic 8, and
therefore the decoder's heuristic always parses unframed encoder output
from offset 0. -/
theorem claim_C10_no_misdetect (t : NBT) (bs : List Nat)
    (h : NBT.write t false = .ok bs) :
    bs.take 1 = [0x0a] ∧ 4 ≤ bs.length ∧
    (∀ v c2, readU32 ⟨bs, 0⟩ = .ok (v, c2) → v ≠ 8) ∧
    NBT.read bs = NBT.readFrom ⟨bs, 0⟩ := by
  cases hw : Value.write t.data (write_string [0x0a] t.name) with
  | error e => simp [NBT.write, hw] at h
  | ok buf =>
    have hbuf := value_write_ok_out _ _ _ hw
    simp only [NBT.write, hw] at h
    simp only [Bool.false_eq_true, if_false, List.nil_append, Except.ok.injEq] at h
    have hbs : bs = 10 :: ((t.name.length % 256) :: (t.name.length / 256 % 256) ::
        (t.name ++ Value.out t.data)) := by
      rw [← h, hbuf]
      simp [write_string, u16LE, List.append_assoc]
    have hpos := Value.out_pos t.data
    cases hno : t.name ++ Value.out t.data with
    | nil =>
      exfalso
      have h2 : t.data.out = [] := (List.append_eq_nil.mp hno).2
      rw [h2] at hpos
      simp at hpos
    | cons z r =>
      rw [hno] at hbs
      subst hbs
      refine ⟨rfl, by simp, ?_, ?_⟩
      · intro v c2 hv
        have hv2 : readU32 (⟨10 :: t.name.length % 256 :: t.name.length / 256 % 256 ::
            z :: r, 0⟩ : Cur) =
            .ok (fromLE [10, t.name.length % 256, t.name.length / 256 % 256, z],
              ⟨r, 4⟩) := rfl
        rw [hv2] at hv
        have hfv : v = fromLE [10, t.name.length % 256, t.name.length / 256 % 256, z] := by
          cases hv
          rfl
        rw [hfv]
        exact fromLE_cons_ne8 _ _ rfl
      · have hv2 : readU32 (⟨10 :: t.name.length % 256 :: t.name.length / 256 % 256 ::
            z :: r, 0⟩ : Cur) =
            .ok (fromLE [10, t.name.length % 256, t.name.length / 256 % 256, z],
              ⟨r, 4⟩) := rfl
        unfold NBT.read
        simp only [hv2]
        rw [if_neg (fromLE_cons_ne8 10 _ rfl)]

/-- Witness for C10 at the concrete "Test" tree. -/
theorem claim_C10_no_misdetect_witness :
    NBT.read [0x0A, 0x04, 0x00, 84, 101, 115, 116, 0x03, 0x03, 0x00, 107, 101, 121,
      0x03, 0x00, 0x00, 0x00, 0x00] =
    NBT.readFrom ⟨[0x0A, 0x04, 0x00, 84, 101, 115, 116, 0x03, 0x03, 0x00, 107, 101,
      121, 0x03, 0x00, 0x00, 0x00, 0x00], 0⟩ := by
  exact (claim_C10_no_misdetect
    ⟨[84, 101, 115, 116], .Compound (.cons [107, 101, 121] (.Int 3) .nil)⟩
    [0x0A, 0x04, 0x00, 84, 101, 115, 116, 0x03, 0x03, 0x00, 107, 101, 121,
      0x03, 0x00, 0x00, 0x00, 0x00] (by decide)).2.2.2

theorem VEntries.keys_insert (m : VEntries) (s : List Nat) (v : Value) :
    (m.insert s v).keys = m.keys.filter (fun k => k != s) ++ [s] := by
  match m with
  | .nil => simp [VEntries.insert, VEntries.keys]
  | .cons n w tl =>
    by_cases hn : n = s
    · simp [VEntries.insert, if_pos hn, VEntries.keys, hn,
        VEntries.keys_insert tl s v]
    · simp [VEntries.insert, if_neg hn, VEntries.keys, hn,
        VEntries.keys_insert tl s v]

theorem VEntries.keys_insert_new (m : VEntries) (s : List Nat) (v : Value)
    (h : m.lookup s = none) : (m.insert s v).keys = m.keys ++ [s] := by
  match m with
  | .nil => simp [VEntries.insert, VEntries.keys]
  | .cons n w tl =>
    by_cases hn : n = s
    · simp [VEntries.lookup, if_pos hn] at h
    · simp only [VEntries.lookup, if_neg hn] at h
      simp [VEntries.insert, if_neg hn, VEntries.keys,
        VEntries.keys_insert_new tl s v h]

theorem VEntries.lookup_insert_self (m : VEntries) (s : List Nat) (v : Value) :
    (m.insert s v).lookup s = some v := by
  match m with
  | .nil => simp [VEntries.insert, VEntries.lookup]
  | .cons n w tl =>
    by_cases hn : n = s
    · simp [VEntries.insert, if_pos hn, VEntries.lookup_insert_self tl s v]
    · simp [VEntries.insert, if_neg hn, VEntries.lookup, if_neg hn,
        VEntries.lookup_insert_self tl s v]

theorem VEntries.lookup_insert_ne (m : VEntries) (s t : List Nat) (v : Value)
    (h : t ≠ s) : (m.insert s v).lookup t = m.lookup t := by
  have hst : s ≠ t := Ne.symm h
  match m with
  | .nil => simp [VEntries.insert, VEntries.lookup, hst]
  | .cons n w tl =>
    by_cases hn : n = s
    · have hnt : n ≠ t := by rw [hn]; exact hst
      simp [VEntries.insert, if_pos hn, VEntries.lookup, if_neg hnt,
        VEntries.lookup_insert_ne tl s t v h]
    · by_cases hnt : n = t
      · simp [VEntries.insert, if_neg hn, VEntries.lookup, if_pos hnt]
      · simp [VEntries.insert, if_neg hn, VEntries.lookup, if_neg hnt,
          VEntries.lookup_insert_ne tl s t v h]

theorem VEntries.remove_absent (m : VEntries) (s : List Nat)
    (h : m.lookup s = none) : m.remove s = m := by
  match m with
  | .nil => simp [VEntries.remove]
  | .cons n w tl =>
    by_cases hn : n = s
    · simp [VEntries.lookup, if_pos hn] at h
    · simp only [VEntries.lookup, if_neg hn] at h
      simp [VEntries.remove, if_neg hn, VEntries.remove_absent tl s h]

theorem VEntries.lookup_remove_ne (m : VEntries) (s t : List Nat)
    (h : t ≠ s) : (m.remove s).lookup t = m.lookup t := by
  match m with
  | .nil => simp [VEntries.remove]
  | .cons n w tl =>
    by_cases hn : n = s
    · have hnt : n ≠ t := by rw [hn]; exact fun hh => h hh.symm
      simp [VEntries.remove, if_pos hn, VEntries.lookup, if_neg hnt]
    · by_cases hnt : n = t
      · simp [VEntries.remove, if_neg hn, VEntries.lookup, if_pos hnt]
      · simp [VEntries.remove, if_neg hn, VEntries.lookup, if_neg hnt,
          VEntries.lookup_remove_ne tl s t h]

theorem VEntries.keys_remove (m : VEntries) (s : List Nat) :
    (m.remove s).keys = m.keys.erase s := by
  match m with
  | .nil => simp [VEntries.remove, VEntries.keys]
  | .cons n w tl =>
    by_cases hn : n = s
    · simp [VEntries.remove, if_pos hn, VEntries.keys, List.erase_cons, hn]
    · simp [VEntries.remove, if_neg hn, VEntries.keys, List.erase_cons, hn,
        VEntries.keys_remove tl s]

/-- C6 counterexample: the claim's "preserving the entry's original
insertion position on replace" fails on the code.  On the two-entry map
`{"a": Int 1, "z": Byte 2}` a terminal `set` of "a" replaces the value but
— through the map's move-to-back `insert` — reorders the entries to
`{"z": Byte 2, "a": Int 9}`: the key order changes from `["a", "z"]` to
`["z", "a"]`. -/
theorem claim_C6_counterexample :
    NBT.set ⟨[], .Compound (.cons [97] (.Int 1) (.cons [122] (.Byte 2) .nil))⟩
        [[97]] (some (.Int 9)) =
      (⟨[], .Compound (.cons [122] (.Byte 2) (.cons [97] (.Int 9) .nil))⟩, none) ∧
    VEntries.keys (.cons [122] (.Byte 2) (.cons [97] (.Int 9) .nil)) ≠
      VEntries.keys (.cons [97] (.Int 1) (.cons [122] (.Byte 2) .nil)) := by
  exact ⟨by decide, by decide⟩

/-- C6 amended: whenever the segment loop reaches the final segment (over
any current compound `m` and any remaining segments), a supplied value is
inserted or replaced under that name — the entry is attached at the back
of the iteration order: appended when the key is absent, moved to the back
when it is present (the underlying map's `insert` semantics; the claim's
position-preservation on replace is refuted by the counterexample) — and
an absent value removes exactly that key, with removal of an absent key a
no-op returning no error.  The first four conjuncts state the terminal
step of `setGo` and of `NBT.set` on a one-segment path; the rest
characterise the insert/remove map operations: the move-to-back key order
after insert, appending on fresh insert, the no-op removal, and untouched
sibling lookups. -/
theorem claim_C6_terminal_set (name : List Nat) (m : VEntries) (s : List Nat)
    (v : Value) (rest : List (List Nat)) (t : List Nat) :
    setGo s (some v) (s :: rest) m = (m.insert s v, none) ∧
    setGo s none (s :: rest) m = (m.remove s, none) ∧
    NBT.set ⟨name, .Compound m⟩ [s] (some v) =
      (⟨name, .Compound (m.insert s v)⟩, none) ∧
    NBT.set ⟨name, .Compound m⟩ [s] none =
      (⟨name, .Compound (m.remove s)⟩, none) ∧
    ((m.insert s v).keys = m.keys.filter (fun k => k != s) ++ [s]) ∧
    (m.lookup s = none → (m.insert s v).keys = m.keys ++ [s]) ∧
    ((m.insert s v).lookup s = some v) ∧
    (t ≠ s → (m.insert s v).lookup t = m.lookup t) ∧
    (m.lookup s = none → m.remove s = m) ∧
    (t ≠ s → (m.remove s).lookup t = m.lookup t) ∧
    ((m.remove s).keys = m.keys.erase s) := by
  refine ⟨by simp [setGo], by simp [setGo], by simp [NBT.set, setGo],
    by simp [NBT.set, setGo], VEntries.keys_insert m s v,
    VEntries.keys_insert_new m s v, VEntries.lookup_insert_self m s v,
    VEntries.lookup_insert_ne m s t v, VEntries.remove_absent m s,
    VEntries.lookup_remove_ne m s t, VEntries.keys_remove m s⟩

/-- Witness for C6 amended: removing the absent "y" from `{"x": Byte 1}`
is a no-op without error, and replacing "x" in the two-entry map
`{"x": Byte 1, "y": Byte 3}` moves it to the back of the key order. -/
theorem claim_C6_terminal_set_witness :
    NBT.set ⟨[], .Compound (.cons [120] (.Byte 1) .nil)⟩ [[121]] none =
      (⟨[], .Compound (.cons [120] (.Byte 1) .nil)⟩, none) ∧
    ((VEntries.cons [120] (.Byte 1) (.cons [121] (.Byte 3) .nil)).insert
      [120] (.Byte 2)).keys = [[121], [120]] := by
  have h := claim_C6_terminal_set [] (.cons [120] (.Byte 1) .nil) [121]
    (.Byte 2) [] [120]
  have h2 := claim_C6_terminal_set []
    (.cons [120] (.Byte 1) (.cons [121] (.Byte 3) .nil)) [120] (.Byte 2) [] [121]
  constructor
  · rw [h.2.2.2.1, h.2.2.2.2.2.2.2.2.1 (by decide)]
  · rw [h2.2.2.2.2.1]
    decide

theorem takeExact_append (pre suf : List Nat) :
    takeExact pre.length (pre ++ suf) = some (pre, suf) := by
  induction pre with
  | nil => rfl
  | cons a tl ih => simp [takeExact, ih]

theorem readExact_append (pre suf : List Nat) (p : Nat) :
    readExact pre.length ⟨pre ++ suf, p⟩ = .ok (pre, ⟨suf, p + pre.length⟩) := by
  simp [readExact, takeExact_append]

theorem fromLE_u16 (n : Nat) : fromLE (u16LE n) = n % 2 ^ 16 := by
  simp only [u16LE, fromLE]
  omega

theorem fromLE_u32 (n : Nat) : fromLE (u32LE n) = n % 2 ^ 32 := by
  simp only [u32LE, fromLE]
  omega

theorem fromLE_u64 (n : Nat) : fromLE (u64LE n) = n % 2 ^ 64 := by
  simp only [u64LE, fromLE]
  omega

theorem u16LE_length (n : Nat) : (u16LE n).length = 2 := rfl

theorem u32LE_length (n : Nat) : (u32LE n).length = 4 := rfl

theorem u64LE_length (n : Nat) : (u64LE n).length = 8 := rfl

theorem readU16_append (n : Nat) (rest : List Nat) (p : Nat) :
    readU16 ⟨u16LE n ++ rest, p⟩ = .ok (n % 2 ^ 16, ⟨rest, p + 2⟩) := by
  have h := readExact_append (u16LE n) rest p
  rw [u16LE_length] at h
  simp [readU16, h, fromLE_u16]

theorem readU32_append (n : Nat) (rest : List Nat) (p : Nat) :
    readU32 ⟨u32LE n ++ rest, p⟩ = .ok (n % 2 ^ 32, ⟨rest, p + 4⟩) := by
  have h := readExact_append (u32LE n) rest p
  rw [u32LE_length] at h
  simp [readU32, h, fromLE_u32]

theorem readU64_append (n : Nat) (rest : List Nat) (p : Nat) :
    readU64 ⟨u64LE n ++ rest, p⟩ = .ok (n % 2 ^ 64, ⟨rest, p + 8⟩) := by
  have h := readExact_append (u64LE n) rest p
  rw [u64LE_length] at h
  simp [readU64, h, fromLE_u64]

theorem asUsize_small (n : Nat) (h : n < 2 ^ 31) : asUsize n = n := if_pos h

theorem read_string_rt (s rest : List Nat) (p : Nat)
    (hlen : s.length < 2 ^ 16) (hv : utf8Valid s = true) :
    read_string ⟨u16LE s.length ++ (s ++ rest), p⟩ =
      .ok (s, ⟨rest, p + 2 + s.length⟩) := by
  have h16 := readU16_append s.length (s ++ rest) p
  rw [Nat.mod_eq_of_lt hlen] at h16
  by_cases h0 : s.length = 0
  · have hs : s = [] := List.length_eq_zero.mp h0
    subst hs
    simp only [read_string, h16, if_pos rfl]
    simp
  · simp only [read_string, h16, if_neg h0]
    have hre := readExact_append s rest (p + 2)
    simp [hre, hv, Nat.add_assoc]

theorem readU8s_rt (v rest : List Nat) (p : Nat) :
    readU8s v.length ⟨v ++ rest, p⟩ = .ok (v, ⟨rest, p + v.length⟩) := by
  induction v generalizing p with
  | nil => simp [readU8s]
  | cons a tl ih =>
    simp only [List.length_cons, List.cons_append, readU8s, readU8]
    rw [ih (p + 1)]
    simp [Nat.add_comm, Nat.add_assoc, Nat.add_left_comm]

theorem writeU32s_length (v : List Nat) : (writeU32s v).length = 4 * v.length := by
  induction v with
  | nil => rfl
  | cons a tl ih => simp [writeU32s, u32LE, ih]; omega

theorem writeU64s_length (v : List Nat) : (writeU64s v).length = 8 * v.length := by
  induction v with
  | nil => rfl
  | cons a tl ih => simp [writeU64s, u64LE, ih]; omega

theorem readU32s_rt (v rest : List Nat) (p : Nat)
    (hall : v.all (· < 2 ^ 32) = true) :
    readU32s v.length ⟨writeU32s v ++ rest, p⟩ = .ok (v, ⟨rest, p + 4 * v.length⟩) := by
  induction v generalizing p with
  | nil => simp [readU32s, writeU32s]
  | cons a tl ih =>
    simp only [List.all_cons, Bool.and_eq_true, decide_eq_true_eq] at hall
    simp only [List.length_cons, writeU32s, List.append_assoc, readU32s]
    rw [readU32_append, Nat.mod_eq_of_lt hall.1]
    simp only [ih (p + 4) hall.2]
    have : p + 4 + 4 * tl.length = p + 4 * (tl.length + 1) := by omega
    simp [this]

theorem readU64s_rt (v rest : List Nat) (p : Nat)
    (hall : v.all (· < 2 ^ 64) = true) :
    readU64s v.length ⟨writeU64s v ++ rest, p⟩ = .ok (v, ⟨rest, p + 8 * v.length⟩) := by
  induction v generalizing p with
  | nil => simp [readU64s, writeU64s]
  | cons a tl ih =>
    simp only [List.all_cons, Bool.and_eq_true, decide_eq_true_eq] at hall
    simp only [List.length_cons, writeU64s, List.append_assoc, readU64s]
    rw [readU64_append, Nat.mod_eq_of_lt hall.1]
    simp only [ih (p + 8) hall.2]
    have : p + 8 + 8 * tl.length = p + 8 * (tl.length + 1) := by omega
    simp [this]

theorem Value.tag_ne_zero (v : Value) : Value.tag v ≠ 0 := by
  cases v <;> simp [Value.tag]

theorem VEntries.appendE_nil (acc : VEntries) : acc.appendE .nil = acc := by
  match acc with
  | .nil => rfl
  | .cons n v tl => simp [VEntries.appendE, VEntries.appendE_nil tl]

theorem VEntries.appendE_assoc (a b c : VEntries) :
    (a.appendE b).appendE c = a.appendE (b.appendE c) := by
  match a with
  | .nil => rfl
  | .cons n v tl => simp [VEntries.appendE, VEntries.appendE_assoc tl b c]

theorem VEntries.insert_absent (acc : VEntries) (n : List Nat) (v : Value)
    (h : acc.lookup n = none) : acc.insert n v = acc.appendE (.cons n v .nil) := by
  match acc with
  | .nil => rfl
  | .cons m w tl =>
    by_cases hm : m = n
    · simp [VEntries.lookup, if_pos hm] at h
    · simp only [VEntries.lookup, if_neg hm] at h
      simp [VEntries.insert, if_neg hm, VEntries.appendE,
        VEntries.insert_absent tl n v h]

theorem VEntries.lookup_isSome_of_mem (es : VEntries) (k : List Nat)
    (h : k ∈ es.keys) : (es.lookup k).isSome = true := by
  match es with
  | .nil => simp [VEntries.keys] at h
  | .cons n v tl =>
    by_cases hn : n = k
    · simp [VEntries.lookup, if_pos hn]
    · simp only [VEntries.keys, List.mem_cons] at h
      rcases h with h | h
      · exact absurd h.symm hn
      · simp [VEntries.lookup, if_neg hn, VEntries.lookup_isSome_of_mem tl k h]

theorem readValue_tag1 (f0 : Nat) (fuel : List Nat) (c : Cur) :
    Value.read (f0 :: fuel) 1 c =
      (match readU8 c with
       | .ok (x, c1) => .ok (.Byte x, c1)
       | .error e => .error e) := rfl

theorem readValue_tag2 (f0 : Nat) (fuel : List Nat) (c : Cur) :
    Value.read (f0 :: fuel) 2 c =
      (match readU16 c with
       | .ok (x, c1) => .ok (.Short x, c1)
       | .error e => .error e) := rfl

theorem readValue_tag3 (f0 : Nat) (fuel : List Nat) (c : Cur) :
    Value.read (f0 :: fuel) 3 c =
      (match readU32 c with
       | .ok (x, c1) => .ok (.Int x, c1)
       | .error e => .error e) := rfl

theorem readValue_tag4 (f0 : Nat) (fuel : List Nat) (c : Cur) :
    Value.read (f0 :: fuel) 4 c =
      (match readU64 c with
       | .ok (x, c1) => .ok (.Long x, c1)
       | .error e => .error e) := rfl

theorem readValue_tag5 (f0 : Nat) (fuel : List Nat) (c : Cur) :
    Value.read (f0 :: fuel) 5 c =
      (match readU32 c with
       | .ok (x, c1) => .ok (.Float x, c1)
       | .error e => .error e) := rfl

theorem readValue_tag6 (f0 : Nat) (fuel : List Nat) (c : Cur) :
    Value.read (f0 :: fuel) 6 c =
      (match readU64 c with
       | .ok (x, c1) => .ok (.Double x, c1)
       | .error e => .error e) := rfl

theorem readValue_tag7 (f0 : Nat) (fuel : List Nat) (c : Cur) :
    Value.read (f0 :: fuel) 7 c =
      (match readU32 c with
       | .error e => .error e
       | .ok (len, c1) =>
           match readU8s (asUsize len) c1 with
           | .error e => .error e
           | .ok (buf, c2) => .ok (.ByteArray buf, c2)) := rfl

theorem readValue_tag8 (f0 : Nat) (fuel : List Nat) (c : Cur) :
    Value.read (f0 :: fuel) 8 c =
      (match read_string c with
       | .ok (s, c1) => .ok (.String s, c1)
       | .error e => .error e) := rfl

theorem readValue_tag9 (f0 : Nat) (fuel : List Nat) (c : Cur) :
    Value.read (f0 :: fuel) 9 c =
      (match readU8 c with
       | .error e => .error e
       | .ok (id, c1) =>
           match readU32 c1 with
           | .error e => .error e
           | .ok (len, c2) =>
               match VList.read fuel id (asUsize len) c2 with
               | .error e => .error e
               | .ok (vs, c3) => .ok (.List vs, c3)) := rfl

theorem readValue_tag10 (f0 : Nat) (fuel : List Nat) (c : Cur) :
    Value.read (f0 :: fuel) 10 c =
      (match VEntries.read fuel c .nil with
       | .error e => .error e
       | .ok (es, c1) => .ok (.Compound es, c1)) := rfl

theorem readValue_tag11 (f0 : Nat) (fuel : List Nat) (c : Cur) :
    Value.read (f0 :: fuel) 11 c =
      (match readU32 c with
       | .error e => .error e
       | .ok (len, c1) =>
           match readU32s (asUsize len) c1 with
           | .error e => .error e
           | .ok (buf, c2) => .ok (.IntArray buf, c2)) := rfl

theorem readValue_tag12 (f0 : Nat) (fuel : List Nat) (c : Cur) :
    Value.read (f0 :: fuel) 12 c =
      (match readU32 c with
       | .error e => .error e
       | .ok (len, c1) =>
           match readU64s (asUsize len) c1 with
           | .error e => .error e
           | .ok (buf, c2) => .ok (.LongArray buf, c2)) := rfl

theorem readVList_zero (f0 : Nat) (fuel : List Nat) (id : Nat) (c : Cur) :
    VList.read (f0 :: fuel) id 0 c = .ok (.nil, c) := rfl

theorem readVList_succ (f0 : Nat) (fuel : List Nat) (id m : Nat) (c : Cur) :
    VList.read (f0 :: fuel) id (m + 1) c =
      (match Value.read fuel id c with
       | .error e => .error e
       | .ok (v, c1) =>
           match VList.read fuel id m c1 with
           | .error e => .error e
           | .ok (vs, c2) => .ok (.cons v vs, c2)) := rfl

theorem readVEntries_step (f0 : Nat) (fuel : List Nat) (c : Cur) (acc : VEntries) :
    VEntries.read (f0 :: fuel) c acc =
      (match read_next_header c with
       | .error e => .error e
       | .ok (id, name, c1) =>
         if id = 0 then .ok (acc, c1)
         else
           match Value.read fuel id c1 with
           | .error e => .error e
           | .ok (v, c2) => VEntries.read fuel c2 (VEntries.insert acc name v)) := rfl

theorem read_next_header_zero (l : List Nat) (p : Nat) :
    read_next_header ⟨0 :: l, p⟩ = .ok (0, [], ⟨l, p + 1⟩) := rfl

theorem read_next_header_entry (tag : Nat) (s rest : List Nat) (p : Nat)
    (htag : tag ≠ 0) (hlen : s.length < 2 ^ 16) (hv : utf8Valid s = true) :
    read_next_header ⟨tag :: (u16LE s.length ++ (s ++ rest)), p⟩ =
      .ok (tag, s, ⟨rest, p + 3 + s.length⟩) := by
  simp only [read_next_header, readU8]
  rw [if_neg htag]
  rw [read_string_rt s rest (p + 1) hlen hv]

mutual
theorem value_read_rt (v : Value) (hwf : Value.wf v = true)
    (hh : Value.homog v = true) (fuel rest : List Nat) (p : Nat)
    (hf : 2 * (Value.out v).length + 1 ≤ fuel.length) :
    Value.read fuel (Value.tag v) ⟨Value.out v ++ rest, p⟩ =
      .ok (v, ⟨rest, p + (Value.out v).length⟩) := by
  match v with
  | .Byte w =>
    simp only [Value.wf, decide_eq_true_eq] at hwf
    cases fuel with
    | nil => simp at hf
    | cons f0 fuel1 =>
      simp only [Value.tag, Value.out] at hf ⊢
      rw [readValue_tag1]
      simp [readU8, Nat.mod_eq_of_lt (show w < 256 by omega)]
  | .Short w =>
    simp only [Value.wf, decide_eq_true_eq] at hwf
    cases fuel with
    | nil => simp at hf
    | cons f0 fuel1 =>
      simp only [Value.tag, Value.out] at hf ⊢
      rw [readValue_tag2]
      simp [readU16_append, Nat.mod_eq_of_lt (show w < 65536 by omega), u16LE_length]
  | .Int w =>
    simp only [Value.wf, decide_eq_true_eq] at hwf
    cases fuel with
    | nil => simp at hf
    | cons f0 fuel1 =>
      simp only [Value.tag, Value.out] at hf ⊢
      rw [readValue_tag3]
      simp [readU32_append, Nat.mod_eq_of_lt (show w < 4294967296 by omega),
        u32LE_length]
  | .Long w =>
    simp only [Value.wf, decide_eq_true_eq] at hwf
    cases fuel with
    | nil => simp at hf
    | cons f0 fuel1 =>
      simp only [Value.tag, Value.out] at hf ⊢
      rw [readValue_tag4]
      simp [readU64_append,
        Nat.mod_eq_of_lt (show w < 18446744073709551616 by omega), u64LE_length]
  | .Float w =>
    simp only [Value.wf, decide_eq_true_eq] at hwf
    cases fuel with
    | nil => simp at hf
    | cons f0 fuel1 =>
      simp only [Value.tag, Value.out] at hf ⊢
      rw [readValue_tag5]
      simp [readU32_append, Nat.mod_eq_of_lt (show w < 4294967296 by omega),
        u32LE_length]
  | .Double w =>
    simp only [Value.wf, decide_eq_true_eq] at hwf
    cases fuel with
    | nil => simp at hf
    | cons f0 fuel1 =>
      simp only [Value.tag, Value.out] at hf ⊢
      rw [readValue_tag6]
      simp [readU64_append,
        Nat.mod_eq_of_lt (show w < 18446744073709551616 by omega), u64LE_length]
  | .ByteArray w =>
    simp only [Value.wf, Bool.and_eq_true, decide_eq_true_eq] at hwf
    cases fuel with
    | nil => simp at hf
    | cons f0 fuel1 =>
      simp only [Value.tag, Value.out] at hf ⊢
      rw [readValue_tag7]
      simp only [List.append_assoc]
      rw [readU32_append]
      simp only [Nat.mod_eq_of_lt (show w.length < 2 ^ 32 by
          have := hwf.1; omega),
        asUsize_small w.length hwf.1, readU8s_rt]
      simp [List.length_append, u32LE_length]
      omega
  | .String w =>
    simp only [Value.wf, Bool.and_eq_true, decide_eq_true_eq] at hwf
    cases fuel with
    | nil => simp at hf
    | cons f0 fuel1 =>
      simp only [Value.tag, Value.out] at hf ⊢
      rw [readValue_tag8]
      simp only [List.append_assoc]
      rw [read_string_rt w rest p hwf.1 hwf.2]
      simp [List.length_append, u16LE_length]
      omega
  | .IntArray w =>
    simp only [Value.wf, Bool.and_eq_true, decide_eq_true_eq] at hwf
    cases fuel with
    | nil => simp at hf
    | cons f0 fuel1 =>
      simp only [Value.tag, Value.out] at hf ⊢
      rw [readValue_tag11]
      simp only [List.append_assoc]
      rw [readU32_append]
      simp only [Nat.mod_eq_of_lt (show w.length < 2 ^ 32 by
          have := hwf.1; omega),
        asUsize_small w.length hwf.1, readU32s_rt w rest (p + 4) hwf.2]
      simp [List.length_append, u32LE_length, writeU32s_length]
      omega
  | .LongArray w =>
    simp only [Value.wf, Bool.and_eq_true, decide_eq_true_eq] at hwf
    cases fuel with
    | nil => simp at hf
    | cons f0 fuel1 =>
      simp only [Value.tag, Value.out] at hf ⊢
      rw [readValue_tag12]
      simp only [List.append_assoc]
      rw [readU32_append]
      simp only [Nat.mod_eq_of_lt (show w.length < 2 ^ 32 by
          have := hwf.1; omega),
        asUsize_small w.length hwf.1, readU64s_rt w rest (p + 4) hwf.2]
      simp [List.length_append, u32LE_length, writeU64s_length]
      omega
  | .List .nil =>
    cases fuel with
    | nil => simp at hf
    | cons f0 fuel1 =>
      cases fuel1 with
      | nil => simp [Value.out] at hf
      | cons f1 fuel2 =>
        simp only [Value.tag, Value.out] at hf ⊢
        rw [readValue_tag9]
        simp only [List.cons_append, List.nil_append, readU8]
        simp only [readU32_append 0 rest (p + 1),
          show asUsize (0 % 2 ^ 32) = 0 from rfl, readVList_zero]
        simp [u32LE_length]
  | .List (.cons v0 tl) =>
    simp only [Value.wf, Bool.and_eq_true, decide_eq_true_eq] at hwf
    simp only [Value.homog, Bool.and_eq_true] at hh
    cases fuel with
    | nil => simp at hf
    | cons f0 fuel1 =>
      rw [show Value.tag (Value.List (.cons v0 tl)) = 9 from rfl]
      simp only [Value.out] at hf ⊢
      rw [readValue_tag9]
      simp only [List.append_assoc, List.cons_append, List.nil_append, readU8]
      rw [readU32_append]
      simp only [Nat.mod_eq_of_lt (show VList.len (.cons v0 tl) < 2 ^ 32 by
          have := hwf.1; omega),
        asUsize_small _ hwf.1]
      have hr := vlist_read_rt (.cons v0 tl) (Value.tag v0) hh.1 hwf.2 hh.2
        fuel1 rest (p + 1 + 4)
        (by simp [List.length_append, u32LE_length] at hf ⊢; omega)
      simp only [hr]
      simp [List.length_append, u32LE_length]
      omega
  | .Compound es =>
    simp only [Value.wf] at hwf
    simp only [Value.homog] at hh
    cases fuel with
    | nil => simp at hf
    | cons f0 fuel1 =>
      rw [show Value.tag (Value.Compound es) = 10 from rfl]
      simp only [Value.out] at hf ⊢
      rw [readValue_tag10]
      simp only [List.append_assoc, List.cons_append, List.nil_append]
      have hr := ventries_read_rt es hwf hh .nil fuel1 rest p
        (fun k _ => rfl)
        (by simp [List.length_append] at hf ⊢; omega)
      simp only [hr]
      try simp [VEntries.appendE, List.length_append]
      try omega

theorem vlist_read_rt (vs : VList) (id : Nat) (hA : VList.allTag id vs = true)
    (hwf : VList.wfAll vs = true) (hh : VList.homogAll vs = true)
    (fuel rest : List Nat) (p : Nat)
    (hf : 2 * (VList.outAll vs).length + 2 ≤ fuel.length) :
    VList.read fuel id (VList.len vs) ⟨VList.outAll vs ++ rest, p⟩ =
      .ok (vs, ⟨rest, p + (VList.outAll vs).length⟩) := by
  match vs with
  | .nil =>
    cases fuel with
    | nil => simp at hf
    | cons f0 fuel1 =>
      simp only [VList.outAll, VList.len, List.nil_append]
      rw [readVList_zero]
      rfl
  | .cons v tl =>
    simp only [VList.allTag, Bool.and_eq_true, beq_iff_eq] at hA
    simp only [VList.wfAll, Bool.and_eq_true] at hwf
    simp only [VList.homogAll, Bool.and_eq_true] at hh
    cases fuel with
    | nil => simp at hf
    | cons f0 fuel1 =>
      simp only [VList.outAll, VList.len, List.append_assoc] at hf ⊢
      rw [readVList_succ]
      have h1 := value_read_rt v hwf.1 hh.1 fuel1 (VList.outAll tl ++ rest) p
        (by simp [List.length_append] at hf ⊢
            have := Value.out_pos v
            omega)
      rw [hA.1] at h1
      simp only [h1]
      have h2 := vlist_read_rt tl id hA.2 hwf.2 hh.2 fuel1 rest
        (p + (Value.out v).length)
        (by simp [List.length_append] at hf ⊢
            have := Value.out_pos v
            omega)
      simp only [h2]
      simp [List.length_append]
      omega

theorem ventries_read_rt (es : VEntries) (hwf : VEntries.wfAll es = true)
    (hh : VEntries.homogAll es = true) (acc : VEntries)
    (fuel rest : List Nat) (p : Nat)
    (hd : ∀ k, k ∈ VEntries.keys es → acc.lookup k = none)
    (hf : 2 * (VEntries.outAll es).length + 2 ≤ fuel.length) :
    VEntries.read fuel ⟨VEntries.outAll es ++ (0 :: rest), p⟩ acc =
      .ok (acc.appendE es, ⟨rest, p + (VEntries.outAll es).length + 1⟩) := by
  match es with
  | .nil =>
    cases fuel with
    | nil => simp at hf
    | cons f0 fuel1 =>
      simp only [VEntries.outAll, List.nil_append]
      rw [readVEntries_step, read_next_header_zero]
      simp [VEntries.appendE_nil]
  | .cons n v tl =>
    simp only [VEntries.wfAll, Bool.and_eq_true, decide_eq_true_eq,
      Option.isNone_iff_eq_none] at hwf
    obtain ⟨⟨⟨⟨hn16, hnv⟩, hntl⟩, hwv⟩, hwtl⟩ := hwf
    simp only [VEntries.homogAll, Bool.and_eq_true] at hh
    cases fuel with
    | nil => simp at hf
    | cons f0 fuel1 =>
      simp only [VEntries.outAll, List.append_assoc, List.cons_append,
        List.nil_append] at hf ⊢
      rw [readVEntries_step]
      rw [read_next_header_entry (Value.tag v) n
        (Value.out v ++ (VEntries.outAll tl ++ ((0 : Nat) :: rest))) p
        (Value.tag_ne_zero v) hn16 hnv]
      simp only [if_neg (Value.tag_ne_zero v)]
      have h1 := value_read_rt v hwv hh.1 fuel1
        (VEntries.outAll tl ++ ((0 : Nat) :: rest)) (p + 3 + n.length)
        (by simp [List.length_append, u16LE_length] at hf ⊢
            omega)
      simp only [h1]
      have hd2 : ∀ k, k ∈ VEntries.keys tl →
          (VEntries.insert acc n v).lookup k = none := by
        intro k hk
        have hkn : k ≠ n := by
          intro he
          rw [he] at hk
          have hs := VEntries.lookup_isSome_of_mem tl n hk
          rw [hntl] at hs
          simp at hs
        rw [VEntries.lookup_insert_ne acc n k v hkn]
        exact hd k (by simp [VEntries.keys, hk])
      have h2 := ventries_read_rt tl hwtl hh.2 (VEntries.insert acc n v)
        fuel1 rest (p + 3 + n.length + (Value.out v).length) hd2
        (by simp [List.length_append, u16LE_length] at hf ⊢
            have := Value.out_pos v
            omega)
      simp only [h2]
      have hins : VEntries.insert acc n v = acc.appendE (.cons n v .nil) :=
        VEntries.insert_absent acc n v (hd n (by simp [VEntries.keys]))
      rw [hins, VEntries.appendE_assoc]
      simp only [VEntries.appendE]
      simp [List.length_append, u16LE_length]
      omega
end

theorem drop8_double_u32 (a b : Nat) (l : List Nat) :
    (u32LE a ++ (u32LE b ++ l)).drop 8 = l := rfl

theorem readFrom_body (t : NBT) (p : Nat) (hwf : NBT.wf t = true)
    (hc : t.data.isCompound = true) (hh : Value.homog t.data = true) :
    NBT.readFrom ⟨write_string [0x0a] t.name ++ Value.out t.data, p⟩ = .ok t := by
  obtain ⟨name, data⟩ := t
  simp only [NBT.wf, Bool.and_eq_true, decide_eq_true_eq] at hwf
  obtain ⟨⟨hn16, hnv⟩, hwd⟩ := hwf
  match data, hc with
  | Value.Compound es, _ =>
    simp only at hh hwd ⊢
    have hshape : write_string [0x0a] name ++ Value.out (Value.Compound es) =
        10 :: (u16LE name.length ++ (name ++ Value.out (Value.Compound es))) := by
      simp [write_string, List.append_assoc]
    rw [hshape]
    unfold NBT.readFrom
    rw [read_next_header_entry 10 name (Value.out (Value.Compound es)) p
      (by omega) hn16 hnv]
    simp only [if_pos rfl]
    have hr := value_read_rt (Value.Compound es) hwd hh
      (0 :: 0 :: (Value.out (Value.Compound es) ++ Value.out (Value.Compound es)))
      [] (p + 3 + name.length)
      (by simp [List.length_append]; omega)
    rw [show Value.tag (Value.Compound es) = 10 from rfl] at hr
    simp only [List.append_nil] at hr
    simp only [hr]
    simp

/-- C1 amended: for every tree that is byte-representable within the
format's limits — root a Compound, every string (tree name, compound keys,
String payloads) shorter than `2 ^ 16` bytes, every array and list shorter
than `2 ^ 31` elements, scalar payloads within their bit widths, compound
keys unique and valid UTF-8 — and whose every List is homogeneous,
decoding the encoding returns the original tree, both with and without the
framing header.  (As stated, with only the homogeneity hypothesis, the
claim is false: see the counterexample, whose over-long string survives
encoding but not decoding.) -/
theorem claim_C1_roundtrip_amended (t : NBT) (framed : Bool)
    (hwf : NBT.wf t = true) (hc : t.data.isCompound = true)
    (hh : Value.homog t.data = true) :
    (NBT.write t framed).bind NBT.read = .ok t := by
  have hdata := value_write_shape t.data (write_string [0x0a] t.name) hh
  cases framed with
  | false =>
    have hwr : NBT.write t false =
        .ok (write_string [0x0a] t.name ++ Value.out t.data) := by
      simp only [NBT.write, hdata]
      simp
    rw [hwr, Except.bind]
    have hn16 : t.name.length < 2 ^ 16 := by
      have := NBT.wf
      simp only [NBT.wf, Bool.and_eq_true, decide_eq_true_eq] at hwf
      exact hwf.1.1
    have hpos := Value.out_pos t.data
    have hshape : write_string [0x0a] t.name ++ Value.out t.data =
        10 :: ((t.name.length % 256) :: (t.name.length / 256 % 256) ::
          (t.name ++ Value.out t.data)) := by
      simp [write_string, u16LE, List.append_assoc]
    cases hno : t.name ++ Value.out t.data with
    | nil =>
      exfalso
      have h2 : Value.out t.data = [] := (List.append_eq_nil.mp hno).2
      rw [h2] at hpos
      simp at hpos
    | cons z r =>
      rw [hshape, hno]
      have hv2 : readU32 (⟨10 :: t.name.length % 256 :: t.name.length / 256 % 256 ::
          z :: r, 0⟩ : Cur) =
          .ok (fromLE [10, t.name.length % 256, t.name.length / 256 % 256, z],
            ⟨r, 4⟩) := rfl
      unfold NBT.read
      simp only [hv2]
      rw [if_neg (fromLE_cons_ne8 10 _ rfl)]
      rw [← hno, ← hshape]
      exact readFrom_body t 0 hwf hc hh
  | true =>
    have hwr : NBT.write t true =
        .ok (u32LE 8 ++
          (u32LE (write_string [0x0a] t.name ++ Value.out t.data).length ++
            (write_string [0x0a] t.name ++ Value.out t.data))) := by
      simp only [NBT.write, hdata]
      simp [List.append_assoc]
    rw [hwr, Except.bind]
    unfold NBT.read
    rw [readU32_append 8 _ 0]
    rw [Nat.mod_eq_of_lt (show (8 : Nat) < 2 ^ 32 by norm_num)]
    simp only [if_pos rfl]
    rw [drop8_double_u32]
    exact readFrom_body t 8 hwf hc hh

/-- C1 counterexample: `bigTree` satisfies the claim's hypothesis (its only
container is a compound, there is no List at all, and the root is a
Compound), yet `decode(encode(bigTree, false))` is not `bigTree`: the
65536-byte string's length prefix is written as `65536 mod 2 ^ 16 = 0`, so
the decoder reads back an empty string and stops at the first NUL byte,
returning a different tree. -/
theorem claim_C1_counterexample :
    (NBT.write bigTree false).bind NBT.read ≠ .ok bigTree ∧
      Value.homog bigTree.data = true ∧ Value.isCompound bigTree.data = true := by
  refine ⟨?_, rfl, rfl⟩
  have hws : NBT.write bigTree false =
      .ok (10 :: 1 :: 0 :: 84 :: 8 :: 1 :: 0 :: 107 ::
        ((List.replicate 65536 0).length % 256) ::
        ((List.replicate 65536 0).length / 256 % 256) ::
        (List.replicate 65536 0 ++ [0])) := rfl
  have hw : NBT.write bigTree false =
      .ok (10 :: 1 :: 0 :: 84 :: 8 :: 1 :: 0 :: 107 :: 0 :: 0 ::
        (List.replicate 65536 0 ++ [0])) := by
    rw [hws]
    simp only [List.length_replicate]
  have hr : NBT.read (10 :: 1 :: 0 :: 84 :: 8 :: 1 :: 0 :: 107 :: 0 :: 0 ::
      (List.replicate 65536 0 ++ [0])) =
      .ok ⟨[84], .Compound (.cons [107] (.String []) .nil)⟩ := rfl
  rw [hw, Except.bind, hr]
  intro h
  have hlen := congrArg (fun x => match x with
    | Except.ok n => match n.data with
      | Value.Compound (VEntries.cons _ (Value.String s) _) => s.length
      | _ => 0
    | _ => 0) h
  simp only [bigTree, List.length_replicate, List.length_nil] at hlen
  exact absurd hlen (by norm_num)

/-- Witness for C1 amended at a tree exercising every tag variant, framed
and unframed. -/
theorem claim_C1_roundtrip_amended_witness :
    (NBT.write ⟨[84], .Compound (
      .cons [97] (.Byte 200) (
      .cons [98] (.Short 500) (
      .cons [99] (.Int 70000) (
      .cons [100] (.Long 5000000000) (
      .cons [101] (.Float 1078530011) (
      .cons [102] (.Double 4614256656552045848) (
      .cons [103] (.ByteArray [1, 255]) (
      .cons [104] (.String [104, 105]) (
      .cons [105] (.List (.cons (.Short 1) (.cons (.Short 2) .nil))) (
      .cons [106] (.Compound (.cons [120] (.Int 1) .nil)) (
      .cons [107] (.IntArray [3000000000]) (
      .cons [108] (.LongArray [1, 2]) .nil))))))))))))⟩ false).bind NBT.read =
    .ok ⟨[84], .Compound (
      .cons [97] (.Byte 200) (
      .cons [98] (.Short 500) (
      .cons [99] (.Int 70000) (
      .cons [100] (.Long 5000000000) (
      .cons [101] (.Float 1078530011) (
      .cons [102] (.Double 4614256656552045848) (
      .cons [103] (.ByteArray [1, 255]) (
      .cons [104] (.String [104, 105]) (
      .cons [105] (.List (.cons (.Short 1) (.cons (.Short 2) .nil))) (
      .cons [106] (.Compound (.cons [120] (.Int 1) .nil)) (
      .cons [107] (.IntArray [3000000000]) (
      .cons [108] (.LongArray [1, 2]) .nil))))))))))))⟩ ∧
    (NBT.write ⟨[84], .Compound (.cons [107] (.Int 3) .nil)⟩ true).bind NBT.read =
      .ok ⟨[84], .Compound (.cons [107] (.Int 3) .nil)⟩ := by
  constructor
  · exact claim_C1_roundtrip_amended _ false (by decide) (by decide) (by decide)
  · exact claim_C1_roundtrip_amended _ true (by decide) (by decide) (by decide)
